import Mathlib

/-!
Verification of the ACC core pipeline (src/acc_core.py) against its
natural-language specification.

Texts are modelled as `List Char` (Python strings are sequences of code
points; all regex character classes are modelled for the ASCII range, which
covers every vocabulary item and pattern in the source).  Each regex used by
the source is embedded as an explicit matching function; the accompanying
comments cite the pattern being embedded.  The two external date services
(dateparser and parsedatetime) are black boxes per the spec and are passed
in as oracle functions returning an optional datetime.

All recursive definitions are structural or fuel-bounded (fuel at least the
length of the scanned text), so every definition evaluates by kernel
reduction on concrete inputs.
-/

set_option maxRecDepth 40000

namespace ACC

/-- Shorthand for a Python string value. -/
abbrev Str := List Char

/-- Whitespace test for the regex class backslash-s and for str.strip
(ASCII range). -/
def isWS (c : Char) : Bool :=
  c == ' ' || c == '\t' || c == '\n' || c == '\r' || c == '\x0b' || c == '\x0c'

/-- Word-character test for the regex class backslash-w and for the
word-boundary assertion (ASCII range). -/
def isWordC (c : Char) : Bool :=
  c.isAlpha || c.isDigit || c == '_'

/-- Length of the longest run of characters satisfying p at the head. -/
def runLen (p : Char → Bool) : Str → Nat
  | [] => 0
  | c :: cs => if p c then runLen p cs + 1 else 0

/-- Case-sensitive test that needle is an initial segment of hay. -/
def isPre : Str → Str → Bool
  | [], _ => true
  | _ :: _, [] => false
  | a :: as, b :: bs => a == b && isPre as bs

/-- Case-insensitive test that needle is an initial segment of hay
(Python re.IGNORECASE, ASCII letters). -/
def isPreCI : Str → Str → Bool
  | [], _ => true
  | _ :: _, [] => false
  | a :: as, b :: bs => a.toLower == b.toLower && isPreCI as bs

/-- Substring containment, the Python operator in for strings. -/
def containsSub (needle : Str) : Str → Bool
  | [] => isPre needle []
  | c :: cs => isPre needle (c :: cs) || containsSub needle cs

/-- Python str.replace on a fuel budget: replace every non-overlapping
occurrence of needle (scanning left to right) by repl.  Adequate when the
fuel is at least the length of the text and the needle is nonempty. -/
def pyReplaceF (needle repl : Str) : Nat → Str → Str
  | _, [] => []
  | 0, s => s
  | fuel + 1, c :: cs =>
    if isPre needle (c :: cs) && !needle.isEmpty then
      repl ++ pyReplaceF needle repl fuel ((c :: cs).drop needle.length)
    else
      c :: pyReplaceF needle repl fuel cs

/-- Python str.replace (the needles used by the source are all nonempty). -/
def pyReplace (needle repl s : Str) : Str :=
  pyReplaceF needle repl s.length s

/-- Python str.strip with no argument: drop leading whitespace. -/
def dropLeadWS : Str → Str
  | [] => []
  | c :: cs => if isWS c then dropLeadWS cs else c :: cs

/-- Python str.strip with no argument: drop trailing whitespace. -/
def dropTrailWS : Str → Str
  | [] => []
  | c :: cs =>
    match dropTrailWS cs with
    | [] => if isWS c then [] else [c]
    | d :: ds => c :: d :: ds

/-- Python str.strip with no argument. -/
def pyStrip (s : Str) : Str :=
  dropTrailWS (dropLeadWS s)

/-- Embedding of re.sub replacing every maximal run of backslash-s
characters by a single space (normalize_text, line 133). -/
def collapse : Str → Str
  | [] => []
  | [c] => if isWS c then [' '] else [c]
  | a :: b :: rest =>
    if isWS a then
      if isWS b then collapse (b :: rest) else ' ' :: collapse (b :: rest)
    else a :: collapse (b :: rest)

/-- Python str.upper, ASCII. -/
def toUpperL (s : Str) : Str := s.map Char.toUpper

/-- Python str.lower, ASCII. -/
def toLowerL (s : Str) : Str := s.map Char.toLower

/-!
Step combinators for the deterministic parts of the source's regexes.  A
step consumes a prefix of the text and returns the remainder, or fails.
Maximal-munch steps are used only where the construct that follows in the
pattern cannot begin with a character of the repeated class, which makes
them equivalent to the backtracking semantics of Python re.
-/

/-- Consume one given character. -/
def litC (c : Char) : Str → Option Str
  | [] => none
  | x :: xs => if x == c then some xs else none

/-- Consume one character of a class. -/
def classC (p : Char → Bool) : Str → Option Str
  | [] => none
  | x :: xs => if p x then some xs else none

/-- Consume one or more characters of a class, maximally. -/
def many1C (p : Char → Bool) (s : Str) : Option Str :=
  let r := runLen p s
  if r == 0 then none else some (s.drop r)

/-- Consume zero or more characters of a class, maximally. -/
def many0C (p : Char → Bool) (s : Str) : Str :=
  s.drop (runLen p s)

/-- Optionally consume with a step (the regex question-mark on a literal
whose continuation is disjoint). -/
def optC (f : Str → Option Str) (s : Str) : Str :=
  (f s).getD s

/-- Consume exactly n characters of a class. -/
def exactNC (p : Char → Bool) : Nat → Str → Option Str
  | 0, s => some s
  | _ + 1, [] => none
  | n + 1, c :: cs => if p c then exactNC p n cs else none

/-- Consume a case-insensitive literal. -/
def strCIC (w : Str) (s : Str) : Option Str :=
  if isPreCI w s then some (s.drop w.length) else none

/-- Sequencing of steps (monomorphic bind on optional remainders). -/
def andThen (x : Option Str) (f : Str → Option Str) : Option Str :=
  match x with
  | none => none
  | some s => f s

/-- Consume a bounded maximal digit run: the regex d{m,n} when the next
construct cannot begin with a digit. -/
def digitsRun (m n : Nat) (s : Str) : Option Str :=
  let r := runLen Char.isDigit s
  if m ≤ r && r ≤ n then some (s.drop r) else none

/-- Character class for digits and slash. -/
def digitSlash (c : Char) : Bool := c.isDigit || c == '/'

/-- Character class for digits and colon. -/
def digitColon (c : Char) : Bool := c.isDigit || c == ':'

/-- Character class APM under IGNORECASE. -/
def apmC (c : Char) : Bool :=
  c.toLower == 'a' || c.toLower == 'p' || c.toLower == 'm'

/-- Character class of everything except a colon. -/
def nonColon (c : Char) : Bool := c != ':'

/-- Character class of everything except a comma. -/
def nonComma (c : Char) : Bool := c != ','

/-!
The five anchored WhatsApp-envelope prefix patterns of
clean_whatsapp_format (acc_core.py lines 106-112), compiled with
IGNORECASE and applied at the start of the text only (the patterns are
anchored and MULTILINE is not set).  In patterns 1, 3 and 5 the tail
backslash-s-star [^:]+ is folded into the non-colon class, which contains
all whitespace.
-/

/-- Envelope pattern 1: bracketed date-comma-time AM or PM, sender, colon. -/
def wpat1 (s : Str) : Option Str :=
  andThen (litC '[' s) fun s =>
  andThen (many1C digitSlash s) fun s =>
  andThen (many1C isWS (optC (litC ',') s)) fun s =>
  andThen (many1C digitColon s) fun s =>
  andThen (classC apmC (many0C isWS s)) fun s =>
  andThen (classC apmC s) fun s =>
  andThen (litC ']' s) fun s =>
  andThen (many1C nonColon s) fun s =>
  andThen (litC ':' s) fun s =>
  some (many0C isWS s)

/-- Envelope pattern 2: sender comma, bracketed date-space-time AM or PM. -/
def wpat2 (s : Str) : Option Str :=
  andThen (many1C nonComma s) fun s =>
  andThen (litC ',' s) fun s =>
  andThen (litC '[' (many0C isWS s)) fun s =>
  andThen (many1C digitSlash s) fun s =>
  andThen (many1C isWS s) fun s =>
  andThen (many1C digitColon s) fun s =>
  andThen (classC apmC (many0C isWS s)) fun s =>
  andThen (classC apmC s) fun s =>
  andThen (litC ']' s) fun s =>
  some (many0C isWS s)

/-- Envelope pattern 3: bracketed date-comma-time without AM or PM, sender,
colon. -/
def wpat3 (s : Str) : Option Str :=
  andThen (litC '[' s) fun s =>
  andThen (many1C digitSlash s) fun s =>
  andThen (many1C isWS (optC (litC ',') s)) fun s =>
  andThen (many1C digitColon s) fun s =>
  andThen (litC ']' s) fun s =>
  andThen (many1C nonColon s) fun s =>
  andThen (litC ':' s) fun s =>
  some (many0C isWS s)

/-- Envelope pattern 4: a forwarded-message banner up to the first colon
on the same line (the lazy dot-star cannot cross a newline). -/
def wpat4 (s : Str) : Option Str :=
  andThen (strCIC "Forwarded message".data s) fun s =>
  andThen (litC ':' (s.drop (runLen (fun c => c != ':' && c != '\n') s))) fun s =>
  some (many0C isWS s)

/-- Envelope pattern 5: unbracketed date comma time AM or PM, dash,
sender, colon. -/
def wpat5 (s : Str) : Option Str :=
  andThen (digitsRun 1 2 s) fun s =>
  andThen (litC '/' s) fun s =>
  andThen (digitsRun 1 2 s) fun s =>
  andThen (litC '/' s) fun s =>
  andThen (digitsRun 2 4 s) fun s =>
  andThen (litC ',' s) fun s =>
  andThen (many1C isWS s) fun s =>
  andThen (digitsRun 1 2 s) fun s =>
  andThen (litC ':' s) fun s =>
  andThen (exactNC Char.isDigit 2 s) fun s =>
  andThen (classC apmC (many0C isWS s)) fun s =>
  andThen (classC apmC s) fun s =>
  andThen (litC '-' (many0C isWS s)) fun s =>
  andThen (many1C nonColon s) fun s =>
  andThen (litC ':' s) fun s =>
  some (many0C isWS s)

/-- Drop the matched anchored prefix if the pattern matches, as done by
re.sub with an anchored pattern. -/
def stripOnce (m : Str → Option Str) (s : Str) : Str :=
  (m s).getD s

/-- Embedding of clean_whatsapp_format (acc_core.py lines 87-118): the
five anchored prefix patterns are applied in order, then the result is
stripped. -/
def clean_whatsapp_format (s : Str) : Str :=
  if s.isEmpty then s
  else pyStrip (stripOnce wpat5 (stripOnce wpat4 (stripOnce wpat3
    (stripOnce wpat2 (stripOnce wpat1 s)))))

/-- The needle of the quote-normalization line (acc_core.py line 137).
In the source, the three consecutive apostrophes open a triple-quoted
Python string, so the line is a single str.replace call whose needle is
the fifteen characters comma, space, double quote, apostrophe, double
quote, closing parenthesis, dot, r, e, p, l, a, c, e, opening
parenthesis, and whose replacement is an apostrophe. -/
def qNeedle : Str := (", \"'\").replace(").data

/-- Embedding of normalize_text (acc_core.py lines 121-139): collapse
whitespace runs, apply the two identity replacements of a double quote by
itself (line 136), apply the needle replacement of line 137, then strip. -/
def normalize_text (s : Str) : Str :=
  if s.isEmpty then s
  else
    let t1 := collapse s
    let t2 := pyReplace ['"'] ['"'] (pyReplace ['"'] ['"'] t1)
    let t3 := pyReplace qNeedle ['\''] t2
    pyStrip t3

/-!
Generic scanning in the style of Python re: a matcher is tried at every
position from left to right; it receives the character before the position
(for the word-boundary assertion) and the remaining text, and reports the
length of the captured group and of the whole match.  re.findall collects
every non-overlapping match, resuming after each match end.
-/

/-- True when the position after this optional character is not preceded
by a word character (half of the word-boundary test; the other half is
that the matcher only matches word characters first). -/
def noWordBefore : Option Char → Bool
  | none => true
  | some c => !(isWordC c)

/-- True when the text ahead does not begin with a word character (the
trailing word-boundary test). -/
def noWordAt : Str → Bool
  | [] => true
  | c :: _ => !(isWordC c)

/-- Fuel-bounded re.findall: collect the captured group of every
non-overlapping match, scanning left to right.  Adequate when the fuel is
at least the length of the text. -/
def scanAllF (m : Option Char → Str → Option (Nat × Nat)) :
    Nat → Option Char → Str → List Str
  | 0, _, _ => []
  | _ + 1, _, [] => []
  | fuel + 1, prev, c :: cs =>
    match m prev (c :: cs) with
    | some (cap, tot) =>
      if tot == 0 then scanAllF m fuel (some c) cs
      else (c :: cs).take cap ::
        scanAllF m fuel ((c :: cs).get? (tot - 1)) ((c :: cs).drop tot)
    | none => scanAllF m fuel (some c) cs

/-- Fuel-bounded re.search position: the position of the leftmost match,
in characters from the start of the scanned text. -/
def scanPosF (m : Option Char → Str → Option (Nat × Nat)) :
    Nat → Option Char → Nat → Str → Option Nat
  | 0, _, _, _ => none
  | _ + 1, _, _, [] => none
  | fuel + 1, prev, i, c :: cs =>
    match m prev (c :: cs) with
    | some _ => some i
    | none => scanPosF m fuel (some c) (i + 1) cs

/-!
Course extraction (acc_core.py lines 40-51 and 146-206).
-/

/-- The COURSE_ABBREVIATIONS vocabulary (only membership is used). -/
def COURSE_ABBREVIATIONS : List Str :=
  ["DSA", "OS", "HCI", "AI", "ML", "DB", "DM", "SE", "CN", "TOC",
   "DBMS", "OOP", "DS", "NLP", "CV", "RL", "GIS", "CAD", "IOT",
   "IR"].map String.data

/-- The EXCLUDE_PATTERNS set of acc_core.py lines 76-80 (only membership
is used). -/
def EXCLUDE_PATTERNS : List Str :=
  ["JAN", "FEB", "MAR", "APR", "MAY", "JUN", "JUL", "AUG",
   "SEP", "OCT", "NOV", "DEC", "MON", "TUE", "WED", "THU",
   "FRI", "SAT", "SUN", "AM", "PM", "GMT", "UTC"].map String.data

/-- Tail of COURSE_CODE_RE after the letters: an optional whitespace
character, two or three digits, and a word boundary.  Taking the optional
whitespace is deterministic because a digit is required next. -/
def codeDigits (s : Str) : Option Nat :=
  let d := runLen Char.isDigit s
  if (2 ≤ d && d ≤ 3) && noWordAt (s.drop d) then some d else none

/-- Matcher for COURSE_CODE_RE (acc_core.py line 40): two to four
uppercase letters, an optional whitespace, two or three digits, between
word boundaries.  The quantifiers are deterministic because every
shorter take of a maximal run leaves a character of the same class
next, failing the following construct. -/
def courseCodeAt (prev : Option Char) (s : Str) : Option (Nat × Nat) :=
  if noWordBefore prev then
    let l := runLen Char.isUpper s
    if 2 ≤ l && l ≤ 4 then
      match s.drop l with
      | c :: cs =>
        if isWS c then
          match codeDigits cs with
          | some d => some (l + 1 + d, l + 1 + d)
          | none => none
        else
          match codeDigits (c :: cs) with
          | some d => some (l + d, l + d)
          | none => none
      | [] => none
    else none
  else none

/-- Matcher for the abbreviation pass regex of acc_core.py line 180: two
to five uppercase letters between word boundaries. -/
def abbrevAt (prev : Option Char) (s : Str) : Option (Nat × Nat) :=
  if noWordBefore prev then
    let l := runLen Char.isUpper s
    if (2 ≤ l && l ≤ 5) && noWordAt (s.drop l) then some (l, l) else none
  else none

/-- The academic-unit nouns of COURSE_NAME_RE, in alternation order. -/
def UNIT_NOUNS : List Str :=
  ["assignment", "exam", "quiz", "project", "course", "class",
   "module", "test", "lab", "homework"].map String.data

/-- First literal of an alternation that matches case-insensitively at
the head of the text, returning its length (Python alternation tries the
alternatives in listed order). -/
def firstLitCI : List Str → Str → Option Nat
  | [], _ => none
  | n :: rest, s => if isPreCI n s then some n.length else firstLitCI rest s

/-- One word atom of COURSE_NAME_RE under IGNORECASE: a letter followed
by one or more letters, hence a maximal run of at least two letters
(shortening the run would leave a letter where the pattern requires
whitespace next). -/
def wordAt (s : Str) : Option Nat :=
  let l := runLen Char.isAlpha s
  if 2 ≤ l then some l else none

/-- Candidate lengths, in greedy preference order, for one repetition of
the group whitespace, optional and-plus-whitespace, word, of
COURSE_NAME_RE.  The branch that consumes the literal and is preferred,
as the optional group is greedy. -/
def repCands (s : Str) : List Nat :=
  let w := runLen isWS s
  if w == 0 then []
  else
    let s1 := s.drop w
    let withAnd :=
      match strCIC "and".data s1 with
      | some s2 =>
        let w2 := runLen isWS s2
        if w2 == 0 then []
        else
          match wordAt (s2.drop w2) with
          | some l => [w + 3 + w2 + l]
          | none => []
      | none => []
    let without :=
      match wordAt s1 with
      | some l => [w + l]
      | none => []
    withAnd ++ without

/-- First candidate for which the continuation succeeds (regex
backtracking over an alternative list). -/
def firstSome (xs : List Nat) (f : Nat → Option (Nat × Nat)) :
    Option (Nat × Nat) :=
  match xs with
  | [] => none
  | x :: rest =>
    match f x with
    | some r => some r
    | none => firstSome rest f

/-- Continuation of COURSE_NAME_RE after the captured phrase: one or more
whitespace characters then one of the academic-unit nouns. -/
def contNoun (s : Str) : Option Nat :=
  let w := runLen isWS s
  if w == 0 then none
  else
    match firstLitCI UNIT_NOUNS (s.drop w) with
    | some l => some (w + l)
    | none => none

/-- Up to maxMore further repetitions of the word group, greedily, then
the noun continuation; returns the length spent on repetitions and on
the continuation. -/
def repsThen : Nat → Str → Option (Nat × Nat)
  | 0, s =>
    match contNoun s with
    | some cl => some (0, cl)
    | none => none
  | m + 1, s =>
    match firstSome (repCands s) (fun len =>
      match repsThen m (s.drop len) with
      | some (a, b) => some (len + a, b)
      | none => none) with
    | some r => some r
    | none =>
      match contNoun s with
      | some cl => some (0, cl)
      | none => none

/-- Matcher for COURSE_NAME_RE (acc_core.py lines 47-51) at one position:
a word, then one to three repetitions of the word group, then the noun
continuation; the captured group ends with the last word.  The flag
IGNORECASE makes every letter class case-insensitive. -/
def courseNameAt (prev : Option Char) (s : Str) : Option (Nat × Nat) :=
  if noWordBefore prev then
    match wordAt s with
    | some w1 =>
      firstSome (repCands (s.drop w1)) (fun l1 =>
        match repsThen 2 (s.drop (w1 + l1)) with
        | some (a, b) => some (w1 + l1 + a, w1 + l1 + a + b)
        | none => none)
    | none => none
  else none

/-- re.findall of COURSE_CODE_RE. -/
def findallCodes (s : Str) : List Str := scanAllF courseCodeAt s.length none s

/-- re.findall of the abbreviation-pass regex. -/
def findallAbbrev (s : Str) : List Str := scanAllF abbrevAt s.length none s

/-- re.findall of COURSE_NAME_RE, collecting the captured groups. -/
def findallNames (s : Str) : List Str := scanAllF courseNameAt s.length none s

/-- Dedup key of acc_core.py line 197: uppercase, then remove spaces. -/
def keyOf (c : Str) : Str := (toUpperL c).filter (fun ch => ch != ' ')

/-- Pass 1 of extract_course_codes (lines 170-177): keep standard codes
whose first three space-stripped characters are not excluded. -/
def pass1 (codes : List Str) : List Str :=
  codes.foldl (fun acc code =>
    let pref := (code.filter (fun ch => ch != ' ')).take 3
    if EXCLUDE_PATTERNS.contains pref then acc else acc ++ [code]) []

/-- Pass 2 of extract_course_codes (lines 180-183): append known
abbreviations not already present. -/
def pass2 (ws : List Str) (acc0 : List Str) : List Str :=
  ws.foldl (fun acc w =>
    if COURSE_ABBREVIATIONS.contains w && !acc.contains w then acc ++ [w]
    else acc) acc0

/-- Pass 3 of extract_course_codes (lines 186-191): append stripped
nonempty course names not already present. -/
def pass3 (names : List Str) (acc0 : List Str) : List Str :=
  names.foldl (fun acc n =>
    let nc := pyStrip n
    if !nc.isEmpty && !acc.contains nc then acc ++ [nc] else acc) acc0

/-- The course list before deduplication (lines 166-191). -/
def coursesRaw (t : Str) : List Str :=
  let tU := toUpperL t
  pass3 (findallNames t) (pass2 (findallAbbrev tU) (pass1 (findallCodes tU)))

/-- Deduplication loop of lines 193-202: keep the first course of each
key, scanning in order with a set of seen keys. -/
def dedupByKey (seen : List Str) : List Str → List Str
  | [] => []
  | c :: cs =>
    let k := keyOf c
    if seen.contains k then dedupByKey seen cs
    else c :: dedupByKey (k :: seen) cs

/-- Embedding of extract_course_codes (acc_core.py lines 146-206). -/
def extract_course_codes (t : Str) : List Str :=
  if t.isEmpty then [] else dedupByKey [] (coursesRaw t)

/-!
Keyword extraction (acc_core.py lines 54-67 and 213-240).
-/

/-- The KEYWORDS vocabulary, in its canonical order. -/
def KEYWORDS : List Str :=
  ["exam", "test", "quiz", "midterm", "final", "assessment",
   "assignment", "homework", "project", "lab", "practical", "tutorial",
   "submission", "submit", "due", "deadline", "hand in", "turn in",
   "meeting", "presentation", "seminar", "lecture", "class", "session",
   "grade", "marked", "graded", "result", "score",
   "course", "subject", "module"].map String.data

/-- Embedding of extract_keywords (acc_core.py lines 213-240): each
vocabulary word contained in the lowercased text, in vocabulary order,
at most once. -/
def extract_keywords (t : Str) : List Str :=
  if t.isEmpty then []
  else
    KEYWORDS.foldl (fun acc kw =>
      if containsSub kw (toLowerL t) && !acc.contains kw then acc ++ [kw]
      else acc) []

/-!
Deadline context extraction (acc_core.py lines 70 and 247-314).
-/

/-- The DEADLINE_TRIGGERS alternation, in order. -/
def DEADLINE_TRIGGERS : List Str :=
  ["deadline", "due", "submit", "submission", "hand in"].map String.data

/-- Characters allowed after the trigger in the deadline phrase: the
class excluding sentence-ending punctuation and newline. -/
def notSentEnd (c : Char) : Bool :=
  !(c == '.' || c == '!' || c == '?' || c == '\n')

/-- The deadline-phrase pattern at one position: a trigger alternative,
then greedily up to 150 characters of the non-terminator class.  Returns
the length of the captured trigger and of the whole match. -/
def triggerHead (s : Str) : Option (Nat × Nat) :=
  match firstLitCI DEADLINE_TRIGGERS s with
  | some tl => some (tl, tl + min 150 (runLen notSentEnd (s.drop tl)))
  | none => none

/-- Fuel-bounded re.search for the deadline phrase: leftmost match,
returning the whole matched phrase and the matched trigger text. -/
def deadlineScan : Nat → Str → Option (Str × Str)
  | 0, _ => none
  | _ + 1, [] => none
  | fuel + 1, c :: cs =>
    match triggerHead (c :: cs) with
    | some (tl, tot) => some ((c :: cs).take tot, (c :: cs).take tl)
    | none => deadlineScan fuel cs

/-- Suffix after the first occurrence of needle (Python str.split with
maxsplit one, second component). -/
def splitAfterFirst (needle : Str) : Str → Str
  | [] => []
  | c :: cs =>
    if isPre needle (c :: cs) then (c :: cs).drop needle.length
    else splitAfterFirst needle cs

/-- The post-trigger text of acc_core.py line 280. -/
def afterTrigger (full trig : Str) : Str :=
  if containsSub trig full then splitAfterFirst trig full else full

/-- Character class of the letters a and p, case-insensitive. -/
def apC (c : Char) : Bool := c.toLower == 'a' || c.toLower == 'p'

/-- Character class of the letter m, case-insensitive. -/
def mC (c : Char) : Bool := c.toLower == 'm'

/-- Character class of slash and dash. -/
def slashDash (c : Char) : Bool := c == '/' || c == '-'

/-- Indicator one: time of day, digits colon two digits, optional
whitespace, a or p, m, between word boundaries. -/
def i1At (prev : Option Char) (s : Str) : Bool :=
  noWordBefore prev &&
  (andThen (digitsRun 1 2 s) fun s =>
   andThen (litC ':' s) fun s =>
   andThen (exactNC Char.isDigit 2 s) fun s =>
   andThen (classC apC (many0C isWS s)) fun s =>
   andThen (classC mC s) fun s =>
   if noWordAt s then some s else none).isSome

/-- Indicator two: the relative day words. -/
def i2At (prev : Option Char) (s : Str) : Bool :=
  noWordBefore prev &&
  (match firstLitCI (["today", "tonight", "tomorrow"].map String.data) s with
   | some l => noWordAt (s.drop l)
   | none => false)

/-- Indicator three: this or next, whitespace, a word (the trailing word
boundary always holds at the end of a maximal word-character run). -/
def i3At (prev : Option Char) (s : Str) : Bool :=
  noWordBefore prev &&
  (match firstLitCI (["this", "next"].map String.data) s with
   | some l =>
     (andThen (many1C isWS (s.drop l)) fun s =>
      many1C isWordC s).isSome
   | none => false)

/-- Indicator four: numeric date, three digit groups separated by slash
or dash, between word boundaries. -/
def i4At (prev : Option Char) (s : Str) : Bool :=
  noWordBefore prev &&
  (andThen (digitsRun 1 2 s) fun s =>
   andThen (classC slashDash s) fun s =>
   andThen (digitsRun 1 2 s) fun s =>
   andThen (classC slashDash s) fun s =>
   andThen (digitsRun 2 4 s) fun s =>
   if noWordAt s then some s else none).isSome

/-- The month alternation of indicator five, in order. -/
def MONTHS : List Str :=
  ["Jan", "Feb", "Mar", "Apr", "May", "Jun", "Jul", "Aug", "Sep",
   "Oct", "Nov", "Dec"].map String.data

/-- Indicator five: spelled date, day digits, whitespace, a month
abbreviation continued by word characters, whitespace, four digits,
between word boundaries. -/
def i5At (prev : Option Char) (s : Str) : Bool :=
  noWordBefore prev &&
  (andThen (digitsRun 1 2 s) fun s =>
   andThen (many1C isWS s) fun s =>
   andThen (match firstLitCI MONTHS s with
            | some l => some (s.drop l)
            | none => none) fun s =>
   andThen (many1C isWS (many0C isWordC s)) fun s =>
   andThen (exactNC Char.isDigit 4 s) fun s =>
   if noWordAt s then some s else none).isSome

/-- The weekday alternation of indicator six, in order. -/
def WEEKDAYS : List Str :=
  ["Monday", "Tuesday", "Wednesday", "Thursday", "Friday", "Saturday",
   "Sunday"].map String.data

/-- Indicator six: a weekday name between word boundaries. -/
def i6At (prev : Option Char) (s : Str) : Bool :=
  noWordBefore prev &&
  (match firstLitCI WEEKDAYS s with
   | some l => noWordAt (s.drop l)
   | none => false)

/-- The focused_indicators list of acc_core.py lines 283-290, in order. -/
def INDICATORS : List (Option Char → Str → Bool) :=
  [i1At, i2At, i3At, i4At, i5At, i6At]

/-- Fuel-bounded re.search position for a boolean matcher. -/
def scanPosB (m : Option Char → Str → Bool) :
    Nat → Option Char → Nat → Str → Option Nat
  | 0, _, _, _ => none
  | _ + 1, _, _, [] => none
  | fuel + 1, prev, i, c :: cs =>
    if m prev (c :: cs) then some i
    else scanPosB m fuel (some c) (i + 1) cs

/-- Leftmost match position of one indicator in the post-trigger text. -/
def indicatorPos (m : Option Char → Str → Bool) (s : Str) : Option Nat :=
  scanPosB m s.length none 0 s

/-- The earliest-indicator fold of acc_core.py lines 292-300: the
running minimum position, and whether any indicator matched. -/
def earliestFold (s : Str) : Nat × Bool :=
  INDICATORS.foldl (fun acc m =>
    match indicatorPos m s with
    | some p => if p < acc.1 then (p, true) else acc
    | none => acc) (s.length, false)

/-- Embedding of extract_deadline_context (acc_core.py lines 247-314). -/
def extract_deadline_context (t : Str) : Option Str × Option Str :=
  if t.isEmpty then (none, none)
  else
    match deadlineScan t.length t with
    | none => (none, none)
    | some (full, trig) =>
      let aft := afterTrigger full trig
      let e := earliestFold aft
      if e.2 then (some full, some (pyStrip ((aft.drop e.1).take 100)))
      else (some full, some ((pyStrip aft).take 100))

/-!
Date resolution (acc_core.py lines 321-447).  A Python datetime is
modelled as a wall-clock value together with an optional UTC offset
(tzinfo); a missing offset is a naive datetime.  The units of the
wall-clock value and of offsets are immaterial to the claims.  The two
external resolvers are oracles; per the collaborator contract they
return an optional datetime and never raise.
-/

/-- Model of a Python datetime: a wall-clock reading and the UTC offset
of its tzinfo, when any. -/
structure PyDatetime where
  wall : Int
  off : Option Int
deriving DecidableEq

/-- Python astimezone to UTC: an aware datetime is shifted by its own
offset; a naive one is interpreted in the local zone (offset localOff). -/
def astimezoneUTC (localOff : Int) (d : PyDatetime) : PyDatetime :=
  match d.off with
  | some o => ⟨d.wall - o, some 0⟩
  | none => ⟨d.wall - localOff, some 0⟩

/-- Embedding of parse_with_dateparser (acc_core.py lines 321-342): empty
text short-circuits to nothing, otherwise the flexible NL resolver oracle
is consulted (its settings are fixed by the source and folded into the
oracle). -/
def parse_with_dateparser (dp : Str → Option PyDatetime) (t : Str) :
    Option PyDatetime :=
  if t.isEmpty then none else dp t

/-- Embedding of parse_with_parsedatetime (acc_core.py lines 345-361):
empty text short-circuits to nothing, otherwise the calendar-phrase
resolver oracle is consulted and a successful result is converted to
UTC with astimezone. -/
def parse_with_parsedatetime (pdt : Str → Option PyDatetime)
    (localOff : Int) (t : Str) : Option PyDatetime :=
  if t.isEmpty then none
  else
    match pdt t with
    | some d => some (astimezoneUTC localOff d)
    | none => none

/-- Explicit pattern one (acc_core.py line 374): ISO date, T or a
whitespace character, hours colon minutes, optional colon seconds,
between word boundaries.  The optional seconds group is greedy: it is
taken when it matches and leaves a word boundary, otherwise the boundary
is checked right after the minutes. -/
def e1Tail (s : Str) : Option Str :=
  andThen (exactNC Char.isDigit 4 s) fun s =>
  andThen (litC '-' s) fun s =>
  andThen (exactNC Char.isDigit 2 s) fun s =>
  andThen (litC '-' s) fun s =>
  andThen (exactNC Char.isDigit 2 s) fun s =>
  andThen (classC (fun c => c == 'T' || isWS c) s) fun s =>
  andThen (exactNC Char.isDigit 2 s) fun s =>
  andThen (litC ':' s) fun s =>
  andThen (exactNC Char.isDigit 2 s) fun s =>
  match (andThen (litC ':' s) fun s2 => exactNC Char.isDigit 2 s2) with
  | some s3 => if noWordAt s3 then some s3
               else if noWordAt s then some s else none
  | none => if noWordAt s then some s else none

/-- Matcher for explicit pattern one; the group is the whole match. -/
def e1At (prev : Option Char) (s : Str) : Option (Nat × Nat) :=
  if noWordBefore prev then
    match e1Tail s with
    | some rest => some (s.length - rest.length, s.length - rest.length)
    | none => none
  else none

/-- Matcher for explicit pattern two (acc_core.py line 375): ISO date
between word boundaries. -/
def e2At (prev : Option Char) (s : Str) : Option (Nat × Nat) :=
  if noWordBefore prev then
    match (andThen (exactNC Char.isDigit 4 s) fun s =>
           andThen (litC '-' s) fun s =>
           andThen (exactNC Char.isDigit 2 s) fun s =>
           andThen (litC '-' s) fun s =>
           andThen (exactNC Char.isDigit 2 s) fun s =>
           if noWordAt s then some s else none) with
    | some rest => some (s.length - rest.length, s.length - rest.length)
    | none => none
  else none

/-- Matcher for explicit pattern three (acc_core.py line 377): slashed
date with a four-digit year, between word boundaries. -/
def e3At (prev : Option Char) (s : Str) : Option (Nat × Nat) :=
  if noWordBefore prev then
    match (andThen (digitsRun 1 2 s) fun s =>
           andThen (litC '/' s) fun s =>
           andThen (digitsRun 1 2 s) fun s =>
           andThen (litC '/' s) fun s =>
           andThen (exactNC Char.isDigit 4 s) fun s =>
           if noWordAt s then some s else none) with
    | some rest => some (s.length - rest.length, s.length - rest.length)
    | none => none
  else none

/-- Matcher for explicit pattern four (acc_core.py line 378): dashed
date with a four-digit year, between word boundaries. -/
def e4At (prev : Option Char) (s : Str) : Option (Nat × Nat) :=
  if noWordBefore prev then
    match (andThen (digitsRun 1 2 s) fun s =>
           andThen (litC '-' s) fun s =>
           andThen (digitsRun 1 2 s) fun s =>
           andThen (litC '-' s) fun s =>
           andThen (exactNC Char.isDigit 4 s) fun s =>
           if noWordAt s then some s else none) with
    | some rest => some (s.length - rest.length, s.length - rest.length)
    | none => none
  else none

/-- Fuel-bounded re.search: the captured text of the leftmost match. -/
def scanFirstF (m : Option Char → Str → Option (Nat × Nat)) :
    Nat → Option Char → Str → Option Str
  | 0, _, _ => none
  | _ + 1, _, [] => none
  | fuel + 1, prev, c :: cs =>
    match m prev (c :: cs) with
    | some (cap, _) => some ((c :: cs).take cap)
    | none => scanFirstF m fuel (some c) cs

/-- One step of the explicit-date loop (acc_core.py lines 381-391): when
the pattern matches somewhere, its group is handed to the flexible NL
resolver; a failed resolution falls through to the next pattern. -/
def tryPattern (dp : Str → Option PyDatetime)
    (m : Option Char → Str → Option (Nat × Nat)) (t : Str) :
    Option PyDatetime :=
  match scanFirstF m t.length none t with
  | some sub => parse_with_dateparser dp sub
  | none => none

/-- Embedding of extract_explicit_date (acc_core.py lines 364-393). -/
def extract_explicit_date (dp : Str → Option PyDatetime) (t : Str) :
    Option PyDatetime :=
  if t.isEmpty then none
  else
    match tryPattern dp e1At t with
    | some dt => some dt
    | none =>
      match tryPattern dp e2At t with
      | some dt => some dt
      | none =>
        match tryPattern dp e3At t with
        | some dt => some dt
        | none =>
          match tryPattern dp e4At t with
          | some dt => some dt
          | none => none

/-- Strategies two to four of parse_date_smart (acc_core.py lines
432-447): the explicit grammar, then the flexible NL resolver, then the
calendar-phrase resolver, each on the full text. -/
def fullLadder (dp pdt : Str → Option PyDatetime) (localOff : Int)
    (text : Str) : Option PyDatetime × Str :=
  match extract_explicit_date dp text with
  | some dt => (some dt, "explicit-format".data)
  | none =>
    match parse_with_dateparser dp text with
    | some dt => (some dt, "dateparser-full".data)
    | none =>
      match parse_with_parsedatetime pdt localOff text with
      | some dt => (some dt, "parsedatetime-full".data)
      | none => (none, "none".data)

/-- Embedding of parse_date_smart (acc_core.py lines 396-447).  The
Python truthiness test on deadline_focused skips the three focused
strategies when the focused text is missing or empty; when they all
fail, control falls through to the full-text ladder. -/
def parse_date_smart (dp pdt : Str → Option PyDatetime) (localOff : Int)
    (text : Str) (deadline_focused : Option Str) :
    Option PyDatetime × Str :=
  match deadline_focused with
  | some df =>
    if df.isEmpty then fullLadder dp pdt localOff text
    else
      match extract_explicit_date dp df with
      | some dt => (some dt, "deadline-explicit".data)
      | none =>
        match parse_with_dateparser dp df with
        | some dt => (some dt, "deadline-dateparser".data)
        | none =>
          match parse_with_parsedatetime pdt localOff df with
          | some dt => (some dt, "deadline-parsedatetime".data)
          | none => fullLadder dp pdt localOff text
  | none => fullLadder dp pdt localOff text

/-!
The pipeline orchestrator (acc_core.py lines 454-562).  The non-string
input branch concerns dynamic typing and is outside the embedding; the
try-except wrapper is represented by the totality of the embedding.
-/

/-- The result record of parse_dates_from_text.  The datetime_iso field
carries the same resolved instant as datetime_utc (its ISO string
rendering is not modelled). -/
structure ParseResult where
  original_text : Str
  cleaned_text : Str
  courses : List Str
  keywords : List Str
  deadline_phrase : Option Str
  deadline_focused : Option Str
  datetime_utc : Option PyDatetime
  datetime_iso : Option PyDatetime
  parser_used : Option Str
  error : Option Str
deriving DecidableEq

/-- The ensure-UTC step of acc_core.py lines 529-534: a naive datetime
gets the UTC tzinfo attached with its wall clock unchanged, an aware one
is converted with astimezone. -/
def ensureUTC (localOff : Int) (d : PyDatetime) : PyDatetime :=
  match d.off with
  | none => ⟨d.wall, some 0⟩
  | some _ => astimezoneUTC localOff d

/-- Embedding of parse_dates_from_text (acc_core.py lines 454-562). -/
def parse_dates_from_text (dp pdt : Str → Option PyDatetime)
    (localOff : Int) (text : Str) : ParseResult :=
  if text.isEmpty then
    { original_text := text, cleaned_text := [], courses := [],
      keywords := [], deadline_phrase := none, deadline_focused := none,
      datetime_utc := none, datetime_iso := none, parser_used := none,
      error := some "Empty input text".data }
  else
    let cleaned := normalize_text (clean_whatsapp_format text)
    let dc := extract_deadline_context cleaned
    let base : ParseResult :=
      { original_text := text, cleaned_text := cleaned,
        courses := extract_course_codes cleaned,
        keywords := extract_keywords cleaned,
        deadline_phrase := dc.1, deadline_focused := dc.2,
        datetime_utc := none, datetime_iso := none, parser_used := none,
        error := none }
    match parse_date_smart dp pdt localOff cleaned dc.2 with
    | (some dt, name) =>
      let d := ensureUTC localOff dt
      { base with
        datetime_utc := some d
        datetime_iso := some d
        parser_used := some name }
    | (none, _) => base

/-!
Auxiliary definitions used only by the statements of the theorems below.
-/

/-- The ordered list of resolution attempts of parse_date_smart, tagged
with their strategy names: the three focused-span strategies (present
exactly when a nonempty focused span was handed in) followed by the
three full-text strategies. -/
def ladderAttempts (dp pdt : Str → Option PyDatetime) (localOff : Int)
    (text : Str) (df : Option Str) : List (Str × Option PyDatetime) :=
  (match df with
   | some f =>
     if f.isEmpty then []
     else
       [("deadline-explicit".data, extract_explicit_date dp f),
        ("deadline-dateparser".data, parse_with_dateparser dp f),
        ("deadline-parsedatetime".data, parse_with_parsedatetime pdt localOff f)]
   | none => []) ++
  [("explicit-format".data, extract_explicit_date dp text),
   ("dateparser-full".data, parse_with_dateparser dp text),
   ("parsedatetime-full".data, parse_with_parsedatetime pdt localOff text)]

/-- An oracle pair for concrete evaluations: a resolver that never
succeeds (every call returns nothing, as permitted by the collaborator
contract). -/
def dpNone : Str → Option PyDatetime := fun _ => none

/-- An oracle for concrete evaluations: a resolver that resolves exactly
the string 2025-11-15 to an aware UTC datetime and nothing else. -/
def dpIso : Str → Option PyDatetime :=
  fun s => if s = "2025-11-15".data then some ⟨77, some 0⟩ else none

/-- An oracle for concrete evaluations: a resolver that resolves every
string to one fixed aware datetime with a nonzero offset. -/
def dpAware : Str → Option PyDatetime := fun _ => some ⟨120, some 60⟩

/-- An oracle for concrete evaluations: a resolver that resolves every
string to one fixed naive datetime. -/
def dpNaive : Str → Option PyDatetime := fun _ => some ⟨45, none⟩

/-- Whitespace-only-as-space wellformedness: every whitespace character
is a plain space (specification predicate for the normalization
theorems). -/
def wsOnlySpace (s : Str) : Bool := s.all (fun c => !(isWS c) || c == ' ')

/-- No two adjacent whitespace characters (specification predicate for
the normalization theorems). -/
def noAdjWS : Str → Bool
  | [] => true
  | [_] => true
  | a :: b :: r => !(isWS a && isWS b) && noAdjWS (b :: r)

/-- The head, if any, is not whitespace. -/
def headNonWS : Str → Bool
  | [] => true
  | c :: _ => !(isWS c)

/-- The last element, if any, is not whitespace. -/
def lastNonWS : Str → Bool
  | [] => true
  | [c] => !(isWS c)
  | _ :: b :: r => lastNonWS (b :: r)

/-!
General lemmas about the embedding.
-/

/-- The two components of extract_deadline_context are absent together
or present together. -/
theorem edc_pair_shape (t : Str) :
    extract_deadline_context t = (none, none) ∨
    ∃ p f, extract_deadline_context t = (some p, some f) := by
  unfold extract_deadline_context
  split
  · exact Or.inl rfl
  · split
    · exact Or.inl rfl
    · right
      dsimp only
      split
      · exact ⟨_, _, rfl⟩
      · exact ⟨_, _, rfl⟩

/-- The full-text ladder yields no datetime exactly when its tag is the
string none (boolean form). -/
theorem fullLadder_none_beq (dp pdt : Str → Option PyDatetime) (lo : Int)
    (text : Str) :
    (fullLadder dp pdt lo text).1.isNone =
      ((fullLadder dp pdt lo text).2 == "none".data) := by
  unfold fullLadder
  split
  · rfl
  · split
    · rfl
    · split
      · rfl
      · rfl

/-- parse_date_smart yields no datetime exactly when its tag is the
string none (boolean form). -/
theorem psd_none_beq (dp pdt : Str → Option PyDatetime) (lo : Int)
    (text : Str) (df : Option Str) :
    (parse_date_smart dp pdt lo text df).1.isNone =
      ((parse_date_smart dp pdt lo text df).2 == "none".data) := by
  unfold parse_date_smart
  rcases df with _ | df
  · exact fullLadder_none_beq dp pdt lo text
  · dsimp only
    split
    · exact fullLadder_none_beq dp pdt lo text
    · split
      · rfl
      · split
        · rfl
        · split
          · rfl
          · exact fullLadder_none_beq dp pdt lo text

/-- parse_date_smart yields no datetime exactly when its tag is the
string none. -/
theorem psd_none_iff (dp pdt : Str → Option PyDatetime) (lo : Int)
    (text : Str) (df : Option Str) :
    ((parse_date_smart dp pdt lo text df).1 = none ↔
     (parse_date_smart dp pdt lo text df).2 = "none".data) := by
  rw [← Option.isNone_iff_eq_none, psd_none_beq, beq_iff_eq]

/-- The full-text ladder is the first-success scan of its three tagged
attempts in order. -/
theorem fullLadder_find (dp pdt : Str → Option PyDatetime) (lo : Int)
    (text : Str) :
    fullLadder dp pdt lo text =
      (([("explicit-format".data, extract_explicit_date dp text),
         ("dateparser-full".data, parse_with_dateparser dp text),
         ("parsedatetime-full".data, parse_with_parsedatetime pdt lo text)].find?
          (fun a => a.2.isSome)).elim (none, "none".data)
        (fun a => (a.2, a.1))) := by
  unfold fullLadder
  rcases h1 : extract_explicit_date dp text with _ | d1 <;>
  rcases h2 : parse_with_dateparser dp text with _ | d2 <;>
  rcases h3 : parse_with_parsedatetime pdt lo text with _ | d3 <;>
    simp [h1, h2, h3]

/-- The stored ensure-UTC step always attaches the UTC offset. -/
theorem ensureUTC_off (lo : Int) (d : PyDatetime) :
    (ensureUTC lo d).off = some 0 := by
  rcases d with ⟨w, _ | o⟩ <;> rfl

/-!
The claims.
-/

/-- Claim C1 (amended): parse_date_smart equals the first-success scan,
in priority order, of the attempt list consisting of deadline-explicit,
deadline-dateparser and deadline-parsedatetime (present exactly when a
nonempty focused span was handed in) followed by explicit-format,
dateparser-full and parsedatetime-full on the full text; when no attempt
succeeds the tag is none.  Hence the first strategy to yield a timestamp
wins and no later one runs; explicit-format can also be reported when a
focused span existed but all three focused strategies failed. -/
theorem C1_ladder_first_success (dp pdt : Str → Option PyDatetime)
    (lo : Int) (text : Str) (df : Option Str) :
    parse_date_smart dp pdt lo text df =
      ((ladderAttempts dp pdt lo text df).find? (fun a => a.2.isSome)).elim
        (none, "none".data) (fun a => (a.2, a.1)) := by
  unfold parse_date_smart ladderAttempts
  rcases df with _ | df
  · simpa using fullLadder_find dp pdt lo text
  · dsimp only
    split
    · simpa using fullLadder_find dp pdt lo text
    · rcases hf1 : extract_explicit_date dp df with _ | d1
      · rcases hf2 : parse_with_dateparser dp df with _ | d2
        · rcases hf3 : parse_with_parsedatetime pdt lo df with _ | d3
          · simpa [hf1, hf2, hf3] using fullLadder_find dp pdt lo text
          · simp [hf1, hf2, hf3]
        · simp [hf1, hf2]
      · simp [hf1]

/-- Claim C1 counterexample: with a nonempty focused span on which all
three focused strategies fail, the winning tag is still explicit-format,
refuting that the tag is reported only when no focused span existed. -/
theorem C1_counterexample :
    (parse_date_smart dpIso dpNone 0 "exam 2025-11-15".data
      (some "zzz".data)).2 = "explicit-format".data ∧
    ("zzz".data : Str) ≠ [] := by decide

/-- Claim C2: the coded-form course pass keeps the candidate AM 22 even
though its letter prefix AM is in the exclusion set, because the filter
compares the first three space-stripped characters (here AM2) against
the set; the code contradicts the intended exclusion. -/
theorem C2_am22_kept :
    extract_course_codes "AM 22".data = ["AM 22".data] ∧
    EXCLUDE_PATTERNS.contains "AM".data = true := by decide

/-- Claim C3 (amended): the result reports exactly one strategy field,
which is absent exactly when the resolved datetime is absent; the
literal string none appears only in the return of parse_date_smart,
where the tag is none exactly when no datetime was found. -/
theorem C3_strategy_absent_iff (dp pdt : Str → Option PyDatetime)
    (lo : Int) (text : Str) :
    ((parse_dates_from_text dp pdt lo text).parser_used = none ↔
     (parse_dates_from_text dp pdt lo text).datetime_utc = none) ∧
    ∀ df, ((parse_date_smart dp pdt lo text df).1 = none ↔
           (parse_date_smart dp pdt lo text df).2 = "none".data) := by
  refine ⟨?_, fun df => psd_none_iff dp pdt lo text df⟩
  unfold parse_dates_from_text
  split
  · simp
  · dsimp only
    split
    · simp
    · simp

/-- Claim C3 counterexample: on an input where nothing resolves, the
strategy field of the result is absent, not the string none, refuting
that the field equals the string none when the datetime is absent. -/
theorem C3_counterexample :
    (parse_dates_from_text dpNone dpNone 0 "hello".data).datetime_utc = none ∧
    ¬ (parse_dates_from_text dpNone dpNone 0 "hello".data).parser_used =
        some "none".data := by decide

/-- Claim C5: a resolved datetime in the result always carries the UTC
offset; the stored value is exactly the ensure-UTC conversion of what
the winning strategy returned, where a naive timestamp is stored with
its wall clock unchanged and UTC attached, and an aware one is shifted
by its own offset. -/
theorem C5_utc_stored (dp pdt : Str → Option PyDatetime) (lo : Int)
    (text : Str) :
    (∀ d, (parse_dates_from_text dp pdt lo text).datetime_utc = some d →
      d.off = some 0) ∧
    ((parse_dates_from_text dp pdt lo text).datetime_utc =
      ((parse_date_smart dp pdt lo (normalize_text (clean_whatsapp_format text))
         (extract_deadline_context (normalize_text (clean_whatsapp_format text))).2).1).map
        (ensureUTC lo)) ∧
    (∀ w : Int, ensureUTC lo ⟨w, none⟩ = ⟨w, some 0⟩) ∧
    (∀ w o : Int, ensureUTC lo ⟨w, some o⟩ = ⟨w - o, some 0⟩) := by
  have hmap : (parse_dates_from_text dp pdt lo text).datetime_utc =
      ((parse_date_smart dp pdt lo (normalize_text (clean_whatsapp_format text))
         (extract_deadline_context (normalize_text (clean_whatsapp_format text))).2).1).map
        (ensureUTC lo) := by
    unfold parse_dates_from_text
    split
    · rename_i h
      rw [List.isEmpty_iff] at h
      subst h
      rfl
    · dsimp only
      split
      · rename_i dt name heq
        rw [heq]
        rfl
      · rename_i snd heq
        rw [heq]
        rfl
  refine ⟨?_, hmap, (fun w => rfl), (fun w o => rfl)⟩
  intro d hd
  rw [hmap] at hd
  rcases h2 : (parse_date_smart dp pdt lo (normalize_text (clean_whatsapp_format text))
      (extract_deadline_context (normalize_text (clean_whatsapp_format text))).2).1 with _ | dt
  · rw [h2] at hd
    nomatch hd
  · rw [h2] at hd
    have hde : ensureUTC lo dt = d := Option.some.inj (by simpa using hd)
    rw [← hde]
    exact ensureUTC_off lo dt

/-- Claim C5 witness: a concrete run in which an aware timestamp with
offset sixty is resolved and stored shifted to UTC. -/
theorem C5_witness : (⟨60, some 0⟩ : PyDatetime).off = some 0 :=
  (C5_utc_stored dpAware dpNone 0 "x".data).1 ⟨60, some 0⟩ (by decide)

/-- Claim C9: the top-level parse of the empty string returns the
well-formed record with every extraction field empty or absent, the
original text preserved, and the error marker present; the embedding is
a total function, so no fault propagates for any input. -/
theorem C9_empty_input (dp pdt : Str → Option PyDatetime) (lo : Int) :
    parse_dates_from_text dp pdt lo [] =
      { original_text := [], cleaned_text := [], courses := [],
        keywords := [], deadline_phrase := none, deadline_focused := none,
        datetime_utc := none, datetime_iso := none, parser_used := none,
        error := some "Empty input text".data } := rfl

/-- Claim C10: in every result of the top-level parse the deadline
phrase and the focused deadline span are present together or absent
together. -/
theorem C10_phrase_iff_focused (dp pdt : Str → Option PyDatetime)
    (lo : Int) (text : Str) :
    (parse_dates_from_text dp pdt lo text).deadline_phrase.isSome =
    (parse_dates_from_text dp pdt lo text).deadline_focused.isSome := by
  unfold parse_dates_from_text
  split
  · rfl
  · dsimp only
    rcases edc_pair_shape (normalize_text (clean_whatsapp_format text)) with h | ⟨p, f, h⟩ <;>
      rw [h] <;> split <;> rfl


theorem dedup_mem_not_seen : ∀ (seen l : List Str) (c : Str),
    c ∈ dedupByKey seen l → seen.contains (keyOf c) = false := by
  intro seen l
  induction l generalizing seen with
  | nil => intro c h; simp [dedupByKey] at h
  | cons a cs ih =>
    intro c h
    unfold dedupByKey at h
    dsimp only at h
    by_cases ha : seen.contains (keyOf a) = true
    · rw [if_pos ha] at h
      exact ih seen c h
    · rw [if_neg ha] at h
      rcases List.mem_cons.mp h with rfl | hmem
      · exact Bool.eq_false_iff.mpr ha
      · have := ih (keyOf a :: seen) c hmem
        simp only [List.contains_cons, Bool.or_eq_false_iff] at this
        exact this.2

theorem dedup_find : ∀ (seen l : List Str) (c : Str),
    c ∈ dedupByKey seen l →
    l.find? (fun x => keyOf x == keyOf c) = some c := by
  intro seen l
  induction l generalizing seen with
  | nil => intro c h; simp [dedupByKey] at h
  | cons a cs ih =>
    intro c h
    unfold dedupByKey at h
    dsimp only at h
    by_cases ha : seen.contains (keyOf a) = true
    · rw [if_pos ha] at h
      have hns := dedup_mem_not_seen seen cs c h
      have hne : (keyOf a == keyOf c) = false := by
        apply beq_eq_false_iff_ne.mpr
        intro hk
        rw [hk] at ha
        exact absurd (show keyOf c ∈ seen by simpa using ha)
          (by simpa using hns)
      simp only [List.find?, hne]
      exact ih seen c h
    · rw [if_neg ha] at h
      rcases List.mem_cons.mp h with rfl | hmem
      · simp [List.find?]
      · have hns := dedup_mem_not_seen (keyOf a :: seen) cs c hmem
        simp only [List.contains_cons, Bool.or_eq_false_iff] at hns
        have hne : (keyOf a == keyOf c) = false :=
          beq_eq_false_iff_ne.mpr (Ne.symm (beq_eq_false_iff_ne.mp hns.1))
        simp only [List.find?, hne]
        exact ih (keyOf a :: seen) c hmem

theorem dedup_pairwise : ∀ (seen l : List Str),
    (dedupByKey seen l).Pairwise (fun a b => keyOf a ≠ keyOf b) := by
  intro seen l
  induction l generalizing seen with
  | nil => simp [dedupByKey]
  | cons a cs ih =>
    unfold dedupByKey
    dsimp only
    by_cases ha : seen.contains (keyOf a) = true
    · rw [if_pos ha]
      exact ih seen
    · rw [if_neg ha]
      refine List.Pairwise.cons ?_ (ih (keyOf a :: seen))
      intro b hb
      have hns := dedup_mem_not_seen (keyOf a :: seen) cs b hb
      simp only [List.contains_cons, Bool.or_eq_false_iff] at hns
      exact Ne.symm (beq_eq_false_iff_ne.mp hns.1)

/-- Claim C6: the courses sequence contains no two entries that agree
after uppercasing and space removal, and each kept entry is the first
candidate of its equivalence class, verbatim. -/
theorem C6_courses_dedup (t : Str) :
    (extract_course_codes t).Pairwise (fun a b => keyOf a ≠ keyOf b) ∧
    ∀ c ∈ extract_course_codes t,
      (coursesRaw t).find? (fun x => keyOf x == keyOf c) = some c := by
  unfold extract_course_codes
  split
  · simp
  · exact ⟨dedup_pairwise [] _, fun c hc => dedup_find [] _ c hc⟩

/-- Claim C6 witness: on a concrete input the kept course CSC101 is the
first candidate of its class. -/
theorem C6_witness :
    (coursesRaw "CSC101 and MATH201 exams".data).find?
      (fun x => keyOf x == keyOf "CSC101".data) = some "CSC101".data :=
  (C6_courses_dedup "CSC101 and MATH201 exams".data).2 "CSC101".data (by decide)


theorem scanPosB_lt (m : Option Char → Str → Bool) :
    ∀ (fuel : Nat) (prev : Option Char) (i : Nat) (s : Str) (p : Nat),
      scanPosB m fuel prev i s = some p → p < i + s.length := by
  intro fuel
  induction fuel with
  | zero => intro prev i s p h; simp [scanPosB] at h
  | succ f ih =>
    intro prev i s p h
    cases s with
    | nil => simp [scanPosB] at h
    | cons c cs =>
      unfold scanPosB at h
      by_cases hm : m prev (c :: cs) = true
      · rw [if_pos hm] at h
        cases h
        simp only [List.length_cons]
        omega
      · rw [if_neg hm] at h
        have := ih (some c) (i + 1) cs p h
        simp only [List.length_cons]
        omega

theorem indicatorPos_lt (m : Option Char → Str → Bool) (s : Str) (p : Nat)
    (h : indicatorPos m s = some p) : p < s.length := by
  have := scanPosB_lt m s.length none 0 s p h
  omega

theorem foldStep_spec (s : Str) :
    ∀ (L : List (Option Char → Str → Bool)) (acc : Nat × Bool),
      (acc.2 = false → acc.1 = s.length) →
      ((L.foldl (fun acc m =>
          match indicatorPos m s with
          | some p => if p < acc.1 then (p, true) else acc
          | none => acc) acc).2 = false →
        (L.foldl (fun acc m =>
          match indicatorPos m s with
          | some p => if p < acc.1 then (p, true) else acc
          | none => acc) acc) = acc ∧ ∀ m ∈ L, indicatorPos m s = none) ∧
      (∀ m ∈ L, ∀ p, indicatorPos m s = some p →
        (L.foldl (fun acc m =>
          match indicatorPos m s with
          | some p => if p < acc.1 then (p, true) else acc
          | none => acc) acc).1 ≤ p) ∧
      ((L.foldl (fun acc m =>
          match indicatorPos m s with
          | some p => if p < acc.1 then (p, true) else acc
          | none => acc) acc).1 ≤ acc.1) ∧
      ((L.foldl (fun acc m =>
          match indicatorPos m s with
          | some p => if p < acc.1 then (p, true) else acc
          | none => acc) acc).2 = true →
        (∃ m ∈ L, indicatorPos m s =
          some (L.foldl (fun acc m =>
            match indicatorPos m s with
            | some p => if p < acc.1 then (p, true) else acc
            | none => acc) acc).1) ∨
        (acc.2 = true ∧ (L.foldl (fun acc m =>
          match indicatorPos m s with
          | some p => if p < acc.1 then (p, true) else acc
          | none => acc) acc).1 = acc.1)) := by
  intro L
  induction L with
  | nil =>
    intro acc hinv
    exact ⟨fun _ => ⟨rfl, by simp⟩, by simp, le_refl _, fun h => Or.inr ⟨h, rfl⟩⟩
  | cons m L ih =>
    intro acc hinv
    rcases hm : indicatorPos m s with _ | p
    · rw [List.foldl_cons, hm]
      dsimp only
      obtain ⟨h1, h2, h3, h4⟩ := ih acc hinv
      refine ⟨fun hf => ?_, ?_, h3, fun htr => ?_⟩
      · obtain ⟨hra, hall⟩ := h1 hf
        exact ⟨hra, fun m' hm' => by
          rcases List.mem_cons.mp hm' with rfl | hm'
          · exact hm
          · exact hall m' hm'⟩
      · intro m' hm' p hp
        rcases List.mem_cons.mp hm' with rfl | hm'
        · rw [hm] at hp; exact absurd hp (by simp)
        · exact h2 m' hm' p hp
      · rcases h4 htr with ⟨m', hm', hq⟩ | ⟨ha, hr⟩
        · exact Or.inl ⟨m', List.mem_cons_of_mem m hm', hq⟩
        · exact Or.inr ⟨ha, hr⟩
    · rw [List.foldl_cons, hm]
      dsimp only
      by_cases hp : p < acc.1
      · rw [if_pos hp]
        obtain ⟨h1, h2, h3, h4⟩ := ih (p, true) (by intro hc; exact absurd hc (by simp))
        refine ⟨fun hf => ?_, ?_, ?_, fun htr => ?_⟩
        · obtain ⟨hra, _⟩ := h1 hf
          rw [hra] at hf
          exact absurd hf (by simp)
        · intro m' hm' q hq
          rcases List.mem_cons.mp hm' with rfl | hm'
          · rw [hm] at hq
            cases hq
            exact le_trans h3 (le_refl _)
          · exact h2 m' hm' q hq
        · exact le_trans h3 (le_of_lt hp)
        · rcases h4 htr with ⟨m', hm', hq⟩ | ⟨_, hr⟩
          · exact Or.inl ⟨m', List.mem_cons_of_mem m hm', hq⟩
          · exact Or.inl ⟨m, List.mem_cons_self m L, by rw [hr]; exact hm⟩
      · rw [if_neg hp]
        obtain ⟨h1, h2, h3, h4⟩ := ih acc hinv
        refine ⟨fun hf => ?_, ?_, h3, fun htr => ?_⟩
        · obtain ⟨hra, _⟩ := h1 hf
          rw [hra] at hf
          have hacc1 := hinv hf
          have := indicatorPos_lt m s p hm
          omega
        · intro m' hm' q hq
          rcases List.mem_cons.mp hm' with rfl | hm'
          · rw [hm] at hq
            cases hq
            omega
          · exact h2 m' hm' q hq
        · rcases h4 htr with ⟨m', hm', hq⟩ | ⟨ha, hr⟩
          · exact Or.inl ⟨m', List.mem_cons_of_mem m hm', hq⟩
          · exact Or.inr ⟨ha, hr⟩


/-- Claim C4 (amended): for every deadline phrase found, the focuser
considers all six indicator patterns and the selected position is the
minimum of their leftmost-match positions (leftmost match wins, not
position in the pattern list) and is attained by one of them; the
focused text is the whitespace-trimmed 100-character truncation of the
post-trigger suffix starting at that position, and when no indicator
matches it is the trimmed post-trigger text truncated to 100
characters. -/
theorem C4_focuser_leftmost (t full trig : Str)
    (h : deadlineScan t.length t = some (full, trig))
    (ht : t.isEmpty = false) :
    (∀ m ∈ INDICATORS, ∀ p,
        indicatorPos m (afterTrigger full trig) = some p →
        (earliestFold (afterTrigger full trig)).1 ≤ p) ∧
    ((earliestFold (afterTrigger full trig)).2 = true →
      (∃ m ∈ INDICATORS, indicatorPos m (afterTrigger full trig) =
          some (earliestFold (afterTrigger full trig)).1) ∧
      extract_deadline_context t = (some full,
        some (pyStrip (((afterTrigger full trig).drop
          (earliestFold (afterTrigger full trig)).1).take 100)))) ∧
    ((earliestFold (afterTrigger full trig)).2 = false →
      (∀ m ∈ INDICATORS, indicatorPos m (afterTrigger full trig) = none) ∧
      extract_deadline_context t = (some full,
        some ((pyStrip (afterTrigger full trig)).take 100))) := by
  set aft := afterTrigger full trig with haft
  obtain ⟨h1, h2, h3, h4⟩ :=
    foldStep_spec aft INDICATORS (aft.length, false) (fun _ => rfl)
  have hef : earliestFold aft = INDICATORS.foldl (fun acc m =>
      match indicatorPos m aft with
      | some p => if p < acc.1 then (p, true) else acc
      | none => acc) (aft.length, false) := rfl
  have hcomp : extract_deadline_context t =
      (if (earliestFold aft).2 then
        (some full, some (pyStrip ((aft.drop (earliestFold aft).1).take 100)))
       else (some full, some ((pyStrip aft).take 100))) := by
    unfold extract_deadline_context
    rw [if_neg (by simp [ht]), h]
  refine ⟨?_, fun hb => ⟨?_, ?_⟩, fun hb => ⟨?_, ?_⟩⟩
  · intro m hm p hp
    rw [hef]
    exact h2 m hm p hp
  · rw [hef] at hb ⊢
    rcases h4 hb with hx | ⟨hfalse, _⟩
    · exact hx
    · exact absurd hfalse (by simp)
  · rw [hcomp, if_pos hb]
  · rw [hef] at hb
    exact (h1 hb).2
  · rw [hcomp, if_neg (by simp [hb])]

/-- Claim C4 witness: a concrete phrase whose earliest indicator is the
relative day word. -/
theorem C4_witness :
    extract_deadline_context "due tomorrow x".data =
      (some "due tomorrow x".data, some "tomorrow x".data) := by
  have hthm := (C4_focuser_leftmost "due tomorrow x".data "due tomorrow x".data "due".data
    (by decide) (by decide)).2.1 (by decide)
  rw [hthm.2]
  decide

/-- Claim C4 counterexample: the focused text is stripped after
truncation, so it is not literally the suffix truncated to 100
characters when that suffix carries trailing whitespace. -/
theorem C4_counterexample :
    extract_deadline_context "due tomorrow ".data =
      (some "due tomorrow ".data, some "tomorrow".data) ∧
    ((" tomorrow ".data : Str).drop 1).take 100 ≠ "tomorrow".data := by decide



theorem isPre_append : ∀ (n s : Str), isPre n s = true → n ++ s.drop n.length = s := by
  intro n
  induction n with
  | nil => intro s _; simp
  | cons a as ih =>
    intro s h
    cases s with
    | nil => simp [isPre] at h
    | cons b bs =>
      simp only [isPre, Bool.and_eq_true, beq_iff_eq] at h
      obtain ⟨rfl, h2⟩ := h
      simpa using ih bs h2

theorem pyReplaceF_self : ∀ (needle : Str) (fuel : Nat) (s : Str),
    pyReplaceF needle needle fuel s = s := by
  intro needle fuel
  induction fuel with
  | zero => intro s; cases s <;> rfl
  | succ f ih =>
    intro s
    cases s with
    | nil => rfl
    | cons c cs =>
      unfold pyReplaceF
      by_cases h : (isPre needle (c :: cs) && !needle.isEmpty) = true
      · rw [if_pos h]
        rw [ih]
        exact isPre_append needle (c :: cs) (Bool.and_eq_true .. ▸ h).1
      · rw [if_neg h, ih]

theorem pyReplaceF_not_contains : ∀ (n r : Str) (fuel : Nat) (s : Str),
    containsSub n s = false → pyReplaceF n r fuel s = s := by
  intro n r fuel
  induction fuel with
  | zero => intro s _; cases s <;> rfl
  | succ f ih =>
    intro s h
    cases s with
    | nil => rfl
    | cons c cs =>
      simp only [containsSub, Bool.or_eq_false_iff] at h
      unfold pyReplaceF
      rw [if_neg (by simp [h.1]), ih cs h.2]

theorem noAdj_cons (a : Char) (l : Str) :
    noAdjWS (a :: l) =
      ((match l with | [] => true | b :: _ => !(isWS a && isWS b)) &&
        noAdjWS l) := by
  cases l with
  | nil => rfl
  | cons b r => rfl

theorem noAdj_tail (a : Char) (l : Str) (h : noAdjWS (a :: l) = true) :
    noAdjWS l = true := by
  rw [noAdj_cons, Bool.and_eq_true] at h
  exact h.2

theorem noAdj_drop : ∀ (n : Nat) (s : Str), noAdjWS s = true →
    noAdjWS (s.drop n) = true := by
  intro n
  induction n with
  | zero => intro s h; simpa using h
  | succ m ih =>
    intro s h
    cases s with
    | nil => simpa using h
    | cons c cs => exact ih cs (noAdj_tail c cs h)

theorem wsOnly_drop (n : Nat) (s : Str) (h : wsOnlySpace s = true) :
    wsOnlySpace (s.drop n) = true := by
  unfold wsOnlySpace at h ⊢
  rw [List.all_eq_true] at h ⊢
  exact fun c hc => h c (List.drop_subset n s hc)

theorem headNonWS_iff (l : Str) :
    headNonWS l = (match l with | [] => true | b :: _ => !(isWS b)) := by
  cases l <;> rfl



theorem replPres (needle : Str) (q : Char) (hq : isWS q = false) :
    ∀ (fuel : Nat) (s : Str), noAdjWS s = true → wsOnlySpace s = true →
      (noAdjWS (pyReplaceF needle [q] fuel s) = true ∧
       wsOnlySpace (pyReplaceF needle [q] fuel s) = true ∧
       (headNonWS s = true → headNonWS (pyReplaceF needle [q] fuel s) = true)) := by
  intro fuel
  induction fuel with
  | zero =>
    intro s h1 h2
    cases s with
    | nil => exact ⟨rfl, rfl, fun h => h⟩
    | cons c cs => exact ⟨h1, h2, fun h => h⟩
  | succ f ih =>
    intro s h1 h2
    cases s with
    | nil => exact ⟨rfl, rfl, fun h => h⟩
    | cons c cs =>
      unfold pyReplaceF
      by_cases hm : (isPre needle (c :: cs) && !needle.isEmpty) = true
      · rw [if_pos hm]
        obtain ⟨r1, r2, _⟩ := ih ((c :: cs).drop needle.length)
          (noAdj_drop needle.length (c :: cs) h1)
          (wsOnly_drop needle.length (c :: cs) h2)
        refine ⟨?_, ?_, fun _ => ?_⟩
        · rw [List.singleton_append, noAdj_cons, Bool.and_eq_true]
          refine ⟨?_, r1⟩
          cases pyReplaceF needle [q] f ((c :: cs).drop needle.length) with
          | nil => rfl
          | cons d ds => simp [hq]
        · rw [List.singleton_append]
          unfold wsOnlySpace at r2 ⊢
          simp only [List.all_cons, Bool.and_eq_true] at *
          exact ⟨by simp [hq], r2⟩
        · rw [List.singleton_append, headNonWS_iff]
          simp [hq]
      · rw [if_neg hm]
        obtain ⟨r1, r2, r3⟩ := ih cs (noAdj_tail c cs h1)
          (by unfold wsOnlySpace at h2 ⊢
              simp only [List.all_cons, Bool.and_eq_true] at h2
              exact h2.2)
        refine ⟨?_, ?_, fun hh => ?_⟩
        · rw [noAdj_cons, Bool.and_eq_true]
          refine ⟨?_, r1⟩
          cases hrec : pyReplaceF needle [q] f cs with
          | nil => rfl
          | cons d ds =>
            by_cases hwc : isWS c = true
            · cases cs with
              | nil => simp [pyReplaceF] at hrec
              | cons e es =>
                rw [noAdj_cons, Bool.and_eq_true] at h1
                have he : isWS e = false := by simpa [hwc] using h1.1
                have hd := r3 (by rw [headNonWS_iff]; simpa using he)
                rw [hrec, headNonWS_iff] at hd
                have hd2 : isWS d = false := by simpa using hd
                simp [hd2]
            · simp [Bool.eq_false_iff.mpr hwc]
        · unfold wsOnlySpace at h2 ⊢
          simp only [List.all_cons, Bool.and_eq_true] at h2 ⊢
          exact ⟨h2.1, r2⟩
        · rw [headNonWS_iff] at hh ⊢
          simpa using hh



theorem collapse_head : ∀ (r : Str) (b : Char),
    ∃ l, collapse (b :: r) = (if isWS b then ' ' else b) :: l := by
  intro r
  induction r with
  | nil =>
    intro b
    by_cases hb : isWS b = true
    · exact ⟨[], by simp [collapse, hb]⟩
    · exact ⟨[], by simp [collapse, hb]⟩
  | cons b2 r2 ih =>
    intro b
    by_cases hb : isWS b = true
    · by_cases hb2 : isWS b2 = true
      · obtain ⟨l, hl⟩ := ih b2
        rw [hb2] at hl
        exact ⟨l, by simp [collapse, hb, hb2, hl]⟩
      · exact ⟨collapse (b2 :: r2), by simp [collapse, hb, hb2]⟩
    · exact ⟨collapse (b2 :: r2), by simp [collapse, hb]⟩

theorem collapse_props : ∀ (s : Str),
    noAdjWS (collapse s) = true ∧ wsOnlySpace (collapse s) = true := by
  intro s
  induction s using collapse.induct with
  | case1 => exact ⟨rfl, rfl⟩
  | case2 c hc =>
    rw [show collapse [c] = [' '] by simp [collapse, hc]]
    exact ⟨rfl, by decide⟩
  | case3 c hc =>
    have hc2 : isWS c = false := Bool.eq_false_iff.mpr hc
    rw [show collapse [c] = [c] by simp [collapse, hc2]]
    refine ⟨rfl, ?_⟩
    simp [wsOnlySpace, hc2]
  | case4 a b rest ha hb ih =>
    rw [show collapse (a :: b :: rest) = collapse (b :: rest) by
      simp [collapse, ha, hb]]
    exact ih
  | case5 a b rest ha hb ih =>
    have hb2 : isWS b = false := Bool.eq_false_iff.mpr hb
    rw [show collapse (a :: b :: rest) = ' ' :: collapse (b :: rest) by
      simp [collapse, ha, hb2]]
    obtain ⟨ih1, ih2⟩ := ih
    constructor
    · rw [noAdj_cons, Bool.and_eq_true]
      refine ⟨?_, ih1⟩
      obtain ⟨l, hl⟩ := collapse_head rest b
      rw [hl, hb2]
      simp [hb2]
    · unfold wsOnlySpace at ih2 ⊢
      simp only [List.all_cons, Bool.and_eq_true]
      exact ⟨by decide, ih2⟩
  | case6 a b rest ha ih =>
    have ha2 : isWS a = false := Bool.eq_false_iff.mpr ha
    rw [show collapse (a :: b :: rest) = a :: collapse (b :: rest) by
      simp [collapse, ha2]]
    obtain ⟨ih1, ih2⟩ := ih
    constructor
    · rw [noAdj_cons, Bool.and_eq_true]
      refine ⟨?_, ih1⟩
      cases collapse (b :: rest) with
      | nil => rfl
      | cons d ds => simp [ha2]
    · unfold wsOnlySpace at ih2 ⊢
      simp only [List.all_cons, Bool.and_eq_true]
      exact ⟨by simp [ha2], ih2⟩



theorem collapse_fixed : ∀ (s : Str),
    noAdjWS s = true → wsOnlySpace s = true → collapse s = s := by
  intro s
  induction s using collapse.induct with
  | case1 => intro _ _; rfl
  | case2 c hc =>
    intro _ h2
    have : c = ' ' := by
      unfold wsOnlySpace at h2
      simp only [List.all_cons, List.all_nil, Bool.and_true] at h2
      rcases Bool.or_eq_true .. ▸ h2 with h | h
      · rw [hc] at h; simp at h
      · exact eq_of_beq h
    subst this
    decide
  | case3 c hc =>
    intro _ _
    simp [collapse, Bool.eq_false_iff.mpr hc]
  | case4 a b rest ha hb ih =>
    intro h1 _
    rw [noAdj_cons, Bool.and_eq_true] at h1
    have hpair := h1.1
    dsimp only at hpair
    rw [ha, hb] at hpair
    simp at hpair
  | case5 a b rest ha hb ih =>
    intro h1 h2
    have hb2 : isWS b = false := Bool.eq_false_iff.mpr hb
    have ha2 : a = ' ' := by
      unfold wsOnlySpace at h2
      simp only [List.all_cons, Bool.and_eq_true] at h2
      rcases Bool.or_eq_true .. ▸ h2.1 with h | h
      · rw [Bool.not_eq_true'] at h
        rw [h] at ha
        simp at ha
      · exact eq_of_beq h
    rw [show collapse (a :: b :: rest) = ' ' :: collapse (b :: rest) by
      simp [collapse, ha, hb2]]
    rw [ih (noAdj_tail a _ h1)
      (by unfold wsOnlySpace at h2 ⊢
          simp only [List.all_cons, Bool.and_eq_true] at h2 ⊢
          exact h2.2), ha2]
  | case6 a b rest ha ih =>
    intro h1 h2
    have ha2 : isWS a = false := Bool.eq_false_iff.mpr ha
    rw [show collapse (a :: b :: rest) = a :: collapse (b :: rest) by
      simp [collapse, ha2]]
    rw [ih (noAdj_tail a _ h1)
      (by unfold wsOnlySpace at h2 ⊢
          simp only [List.all_cons, Bool.and_eq_true] at h2 ⊢
          exact h2.2)]

theorem dropLead_noAdj (s : Str) (h : noAdjWS s = true) :
    noAdjWS (dropLeadWS s) = true := by
  induction s with
  | nil => exact h
  | cons c cs ih =>
    unfold dropLeadWS
    by_cases hc : isWS c = true
    · rw [if_pos hc]; exact ih (noAdj_tail c cs h)
    · rw [if_neg hc]; exact h

theorem dropLead_wsOnly (s : Str) (h : wsOnlySpace s = true) :
    wsOnlySpace (dropLeadWS s) = true := by
  induction s with
  | nil => exact h
  | cons c cs ih =>
    unfold dropLeadWS
    unfold wsOnlySpace at h
    simp only [List.all_cons, Bool.and_eq_true] at h
    by_cases hc : isWS c = true
    · rw [if_pos hc]; exact ih h.2
    · rw [if_neg hc]
      unfold wsOnlySpace
      simp only [List.all_cons, Bool.and_eq_true]
      exact h

theorem dropLead_head (s : Str) : headNonWS (dropLeadWS s) = true := by
  induction s with
  | nil => rfl
  | cons c cs ih =>
    unfold dropLeadWS
    by_cases hc : isWS c = true
    · rw [if_pos hc]; exact ih
    · rw [if_neg hc, headNonWS_iff]
      simpa using Bool.eq_false_iff.mpr hc

theorem dropLead_fixed (s : Str) (h : headNonWS s = true) :
    dropLeadWS s = s := by
  cases s with
  | nil => rfl
  | cons c cs =>
    rw [headNonWS_iff] at h
    simp only [Bool.not_eq_true'] at h
    simp [dropLeadWS, h]



theorem dropTrail_head : ∀ (s : Str) (d : Char) (ds : Str),
    dropTrailWS s = d :: ds → ∃ cs, s = d :: cs := by
  intro s
  induction s with
  | nil => intro d ds h; simp [dropTrailWS] at h
  | cons c cs ih =>
    intro d ds h
    unfold dropTrailWS at h
    rcases hrec : dropTrailWS cs with _ | ⟨e, es⟩
    · rw [hrec] at h
      by_cases hc : isWS c = true
      · rw [if_pos hc] at h; cases h
      · rw [if_neg hc] at h
        cases h
        exact ⟨cs, rfl⟩
    · rw [hrec] at h
      cases h
      exact ⟨cs, rfl⟩

theorem dropTrail_noAdj (s : Str) (h : noAdjWS s = true) :
    noAdjWS (dropTrailWS s) = true := by
  induction s with
  | nil => exact h
  | cons c cs ih =>
    unfold dropTrailWS
    rcases hrec : dropTrailWS cs with _ | ⟨e, es⟩
    · by_cases hc : isWS c = true
      · rw [if_pos hc]; rfl
      · rw [if_neg hc]; rfl
    · have htail := ih (noAdj_tail c cs h)
      rw [hrec] at htail
      rw [noAdj_cons, Bool.and_eq_true]
      refine ⟨?_, htail⟩
      obtain ⟨cs2, hcs2⟩ := dropTrail_head cs e es hrec
      subst hcs2
      rw [noAdj_cons, Bool.and_eq_true] at h
      exact h.1

theorem dropTrail_wsOnly (s : Str) (h : wsOnlySpace s = true) :
    wsOnlySpace (dropTrailWS s) = true := by
  induction s with
  | nil => exact h
  | cons c cs ih =>
    unfold wsOnlySpace at h
    simp only [List.all_cons, Bool.and_eq_true] at h
    unfold dropTrailWS
    rcases hrec : dropTrailWS cs with _ | ⟨e, es⟩
    · by_cases hc : isWS c = true
      · rw [if_pos hc]; rfl
      · rw [if_neg hc]
        unfold wsOnlySpace
        simp only [List.all_cons, List.all_nil, Bool.and_true]
        exact h.1
    · have htail := ih h.2
      rw [hrec] at htail
      unfold wsOnlySpace at htail ⊢
      simp only [List.all_cons, Bool.and_eq_true] at htail ⊢
      exact ⟨h.1, htail⟩

theorem dropTrail_headNonWS (s : Str) (h : headNonWS s = true) :
    headNonWS (dropTrailWS s) = true := by
  rcases hrec : dropTrailWS s with _ | ⟨e, es⟩
  · rfl
  · obtain ⟨cs, rfl⟩ := dropTrail_head s e es hrec
    rw [headNonWS_iff] at h ⊢
    exact h

theorem dropTrail_last : ∀ (s : Str), lastNonWS (dropTrailWS s) = true := by
  intro s
  induction s with
  | nil => rfl
  | cons c cs ih =>
    unfold dropTrailWS
    rcases hrec : dropTrailWS cs with _ | ⟨e, es⟩
    · by_cases hc : isWS c = true
      · rw [if_pos hc]; rfl
      · rw [if_neg hc]
        unfold lastNonWS
        simpa using Bool.eq_false_iff.mpr hc
    · rw [hrec] at ih
      unfold lastNonWS
      exact ih

theorem dropTrail_fixed : ∀ (s : Str), lastNonWS s = true → dropTrailWS s = s := by
  intro s
  induction s with
  | nil => intro _; rfl
  | cons c cs ih =>
    intro h
    unfold dropTrailWS
    cases cs with
    | nil =>
      unfold lastNonWS at h
      simp only [Bool.not_eq_true'] at h
      simp [dropTrailWS, h]
    | cons b r =>
      have : lastNonWS (b :: r) = true := h
      rw [ih this]

theorem strip_fixed (s : Str) (h1 : headNonWS s = true) (h2 : lastNonWS s = true) :
    pyStrip s = s := by
  unfold pyStrip
  rw [dropLead_fixed s h1, dropTrail_fixed s h2]



theorem pyReplace_self (n s : Str) : pyReplace n n s = s :=
  pyReplaceF_self n s.length s

theorem pyReplace_not_contains (n r s : Str) (h : containsSub n s = false) :
    pyReplace n r s = s :=
  pyReplaceF_not_contains n r s.length s h

theorem normalize_NF (s : Str) :
    noAdjWS (normalize_text s) = true ∧ wsOnlySpace (normalize_text s) = true ∧
    headNonWS (normalize_text s) = true ∧ lastNonWS (normalize_text s) = true := by
  unfold normalize_text
  by_cases hs : s.isEmpty = true
  · rw [if_pos hs]
    have : s = [] := List.isEmpty_iff.mp hs
    subst this
    exact ⟨rfl, rfl, rfl, rfl⟩
  · rw [if_neg hs]
    dsimp only
    rw [pyReplace_self, pyReplace_self]
    obtain ⟨hc1, hc2⟩ := collapse_props s
    have h3 := replPres qNeedle '\'' (by decide) (collapse s).length (collapse s) hc1 hc2
    unfold pyStrip
    refine ⟨dropTrail_noAdj _ (dropLead_noAdj _ ?_),
            dropTrail_wsOnly _ (dropLead_wsOnly _ ?_),
            dropTrail_headNonWS _ (dropLead_head _),
            dropTrail_last _⟩
    · exact h3.1
    · exact h3.2.1

theorem nt_fixed (c : Str) (h1 : noAdjWS c = true) (h2 : wsOnlySpace c = true)
    (h3 : headNonWS c = true) (h4 : lastNonWS c = true)
    (h5 : containsSub qNeedle c = false) : normalize_text c = c := by
  unfold normalize_text
  by_cases hc : c.isEmpty = true
  · rw [if_pos hc]
  · rw [if_neg hc]
    dsimp only
    rw [collapse_fixed c h1 h2, pyReplace_self, pyReplace_self,
        pyReplace_not_contains _ _ _ h5, strip_fixed c h3 h4]

theorem pdft_cleaned (dp pdt : Str → Option PyDatetime) (lo : Int) (text : Str) :
    (parse_dates_from_text dp pdt lo text).cleaned_text = [] ∨
    (parse_dates_from_text dp pdt lo text).cleaned_text =
      normalize_text (clean_whatsapp_format text) := by
  unfold parse_dates_from_text
  split
  · exact Or.inl rfl
  · dsimp only
    split <;> exact Or.inr rfl

/-- Claim C8 (amended): normalization is a fixed point on the cleaned
text of a result provided the cleaned text does not again match a
chat-envelope prefix and does not contain the quote-replacement needle
of normalize_text line 137; without those provisos a stripped export can
expose another envelope (see the counterexample), so the stage is not
unconditionally idempotent. -/
theorem C8_normalization_fixed_point (dp pdt : Str → Option PyDatetime) (lo : Int) (text : Str)
    (hc : clean_whatsapp_format ((parse_dates_from_text dp pdt lo text).cleaned_text) =
      (parse_dates_from_text dp pdt lo text).cleaned_text)
    (hn : containsSub qNeedle ((parse_dates_from_text dp pdt lo text).cleaned_text) = false) :
    normalize_text (clean_whatsapp_format
      ((parse_dates_from_text dp pdt lo text).cleaned_text)) =
      (parse_dates_from_text dp pdt lo text).cleaned_text := by
  rw [hc]
  rcases pdft_cleaned dp pdt lo text with h | h
  · rw [h]
    rfl
  · rw [h] at hn ⊢
    obtain ⟨n1, n2, n3, n4⟩ := normalize_NF (clean_whatsapp_format text)
    exact nt_fixed _ n1 n2 n3 n4 hn

/-- Claim C8 witness: a concrete input on which the provisos hold and
re-normalizing the cleaned text leaves it unchanged. -/
theorem C8_witness :
    normalize_text (clean_whatsapp_format
      ((parse_dates_from_text dpNone dpNone 0 "hello x".data).cleaned_text)) =
      (parse_dates_from_text dpNone dpNone 0 "hello x".data).cleaned_text :=
  C8_normalization_fixed_point dpNone dpNone 0 "hello x".data (by decide) (by decide)

/-- Claim C8 counterexample: a doubly forwarded banner survives one pass
of envelope stripping, so applying the normalization stage to the
cleaned text strips further and the fixed point fails. -/
theorem C8_counterexample :
    (parse_dates_from_text dpNone dpNone 0
        "Forwarded message: Forwarded message: hi".data).cleaned_text =
      "Forwarded message: hi".data ∧
    normalize_text (clean_whatsapp_format "Forwarded message: hi".data) =
      "hi".data ∧
    ("Forwarded message: hi".data : Str) ≠ "hi".data := by decide



theorem runLen_all_stop (p : Char → Bool) : ∀ (w : Str) (c : Char) (r : Str),
    (∀ x ∈ w, p x = true) → p c = false → runLen p (w ++ c :: r) = w.length := by
  intro w
  induction w with
  | nil => intro c r _ hc; simp [runLen, hc]
  | cons a as ih =>
    intro c r hall hc
    have hpa : p a = true := hall a (List.mem_cons_self a as)
    simp only [List.cons_append, runLen, hpa, if_true, List.length_cons,
      List.append_eq]
    rw [ih c r (fun x hx => hall x (List.mem_cons_of_mem a hx)) hc]

theorem alpha_not_ws (c : Char) (h : c.isAlpha = true) : isWS c = false := by
  unfold isWS
  by_contra hc
  simp only [Bool.not_eq_false, Bool.or_eq_true, beq_iff_eq] at hc
  rcases hc with ((((rfl | rfl) | rfl) | rfl) | rfl) | rfl <;>
    exact absurd h (by decide)

theorem preCI_and_false (w2 : Str) (h2 : 2 ≤ w2.length)
    (hand : isPreCI "and".data w2 = false) (r : Str) :
    isPreCI "and".data (w2 ++ ' ' :: r) = false := by
  rcases w2 with _ | ⟨a, _ | ⟨b, w⟩⟩
  · simp at h2
  · simp at h2
  · cases w with
    | nil =>
      have hd : ('d'.toLower == ' '.toLower) = false := by decide
      simp [isPreCI, hd]
    | cons c w' =>
      show isPreCI ['a', 'n', 'd'] (a :: b :: c :: (w' ++ ' ' :: r)) = false
      simp only [isPreCI, Bool.and_eq_false_iff] at hand ⊢
      rcases hand with h | h
      · exact Or.inl h
      · rcases h with h | h
        · exact Or.inr (Or.inl h)
        · rcases h with h | h
          · exact Or.inr (Or.inr (Or.inl h))
          · simp [isPreCI] at h

theorem wordAt_append (w : Str) (c : Char) (r : Str)
    (hall : ∀ x ∈ w, Char.isAlpha x = true)
    (hc : Char.isAlpha c = false) (hlen : 2 ≤ w.length) :
    wordAt (w ++ c :: r) = some w.length := by
  unfold wordAt
  rw [runLen_all_stop Char.isAlpha w c r hall hc]
  simp [hlen]

theorem scanAllF_nil (m : Option Char → Str → Option (Nat × Nat)) :
    ∀ (fuel : Nat) (prev : Option Char), scanAllF m fuel prev [] = [] := by
  intro fuel prev
  cases fuel <;> rfl



theorem repCands_symbolic (w2 r : Str)
    (hall : ∀ x ∈ w2, Char.isAlpha x = true) (hlen : 2 ≤ w2.length)
    (hand : isPreCI "and".data w2 = false) :
    repCands (' ' :: (w2 ++ ' ' :: r)) = [1 + w2.length] := by
  obtain ⟨b, w2', rfl⟩ : ∃ b t, w2 = b :: t := by
    cases w2 with
    | nil => simp at hlen
    | cons b t => exact ⟨b, t, rfl⟩
  have hb : isWS b = false :=
    alpha_not_ws b (hall b (List.mem_cons_self b w2'))
  have hws : runLen isWS (' ' :: (b :: w2' ++ ' ' :: r)) = 1 := by
    show (if isWS ' ' then runLen isWS (b :: w2' ++ ' ' :: r) + 1 else 0) = 1
    rw [if_pos (by decide)]
    show (if isWS b then runLen isWS (w2' ++ ' ' :: r) + 1 else 0) + 1 = 1
    rw [if_neg (by simp [hb])]
  unfold repCands
  rw [hws]
  simp only [Nat.one_ne_zero, if_neg, beq_iff_eq, List.drop_succ_cons,
    List.drop_zero]
  have hpre := preCI_and_false (b :: w2') hlen hand r
  rw [show strCIC "and".data (b :: w2' ++ ' ' :: r) = none by
    unfold strCIC
    rw [if_neg (by simpa using hpre)]]
  rw [wordAt_append (b :: w2') ' ' r hall (by decide) hlen]
  simp



theorem courseNameAt_symbolic (w1 w2 : Str)
    (h1a : ∀ x ∈ w1, Char.isAlpha x = true) (h1l : 2 ≤ w1.length)
    (h2a : ∀ x ∈ w2, Char.isAlpha x = true) (h2l : 2 ≤ w2.length)
    (hand : isPreCI "and".data w2 = false) :
    courseNameAt none (w1 ++ ' ' :: (w2 ++ ' ' :: "exam".data)) =
      some (w1.length + (1 + w2.length), w1.length + (1 + w2.length) + 5) := by
  unfold courseNameAt
  rw [if_pos (show noWordBefore none = true from rfl)]
  rw [wordAt_append w1 ' ' _ h1a (by decide) h1l]
  dsimp only
  rw [List.drop_left]
  rw [repCands_symbolic w2 _ h2a h2l hand]
  unfold firstSome
  have hdrop : (w1 ++ ' ' :: (w2 ++ ' ' :: "exam".data)).drop
      (w1.length + (1 + w2.length)) = ' ' :: "exam".data := by
    have hshape : w1 ++ ' ' :: (w2 ++ ' ' :: "exam".data) =
        (w1 ++ ' ' :: w2) ++ ' ' :: "exam".data := by
      simp [List.cons_append, List.append_assoc]
    have hlen2 : (w1 ++ ' ' :: w2).length = w1.length + (1 + w2.length) := by
      simp [List.length_append]
      omega
    rw [hshape, ← hlen2, List.drop_left]
  rw [hdrop]
  rw [show repsThen 2 (' ' :: "exam".data) = some (0, 5) from by decide]
  dsimp only
  norm_num



theorem scanAllF_full (m : Option Char → Str → Option (Nat × Nat))
    (s : Str) (cap tot : Nat) (h : m none s = some (cap, tot))
    (htot : tot = s.length) (hne : s ≠ []) :
    scanAllF m s.length none s = [s.take cap] := by
  cases s with
  | nil => exact absurd rfl hne
  | cons c cs =>
    rw [show (c :: cs).length = cs.length + 1 from rfl]
    rw [scanAllF, h]
    dsimp only
    rw [if_neg (by simp [htot])]
    rw [htot]
    rw [show (c :: cs).length = cs.length + 1 from rfl]
    rw [show List.drop (cs.length + 1) (c :: cs) = List.drop cs.length cs from rfl,
      List.drop_length, scanAllF_nil]

theorem findallNames_symbolic (w1 w2 : Str)
    (h1a : ∀ x ∈ w1, Char.isAlpha x = true) (h1l : 2 ≤ w1.length)
    (h2a : ∀ x ∈ w2, Char.isAlpha x = true) (h2l : 2 ≤ w2.length)
    (hand : isPreCI "and".data w2 = false) :
    findallNames (w1 ++ ' ' :: (w2 ++ ' ' :: "exam".data)) =
      [w1 ++ ' ' :: w2] := by
  have hm := courseNameAt_symbolic w1 w2 h1a h1l h2a h2l hand
  have hne : w1 ++ ' ' :: (w2 ++ ' ' :: "exam".data) ≠ [] := by
    cases w1 <;> simp
  have hexam : ("exam".data).length = 4 := rfl
  have htot : w1.length + (1 + w2.length) + 5 =
      (w1 ++ ' ' :: (w2 ++ ' ' :: "exam".data)).length := by
    simp only [List.length_append, List.length_cons, hexam]
    omega
  unfold findallNames
  rw [scanAllF_full (courseNameAt) (w1 ++ ' ' :: (w2 ++ ' ' :: "exam".data))
    (w1.length + (1 + w2.length)) (w1.length + (1 + w2.length) + 5) hm htot hne]
  have hshape : w1 ++ ' ' :: (w2 ++ ' ' :: "exam".data) =
      (w1 ++ ' ' :: w2) ++ (' ' :: "exam".data) := by
    simp
  have hcap : w1.length + (1 + w2.length) = (w1 ++ ' ' :: w2).length := by
    simp only [List.length_append, List.length_cons]
    omega
  rw [hshape, hcap, List.take_left]



/-- Claim C7 (amended): the named-form course pass matches phrases of
two to four consecutive words of at least two letters each, regardless
of capitalization (COURSE_NAME_RE is compiled with IGNORECASE),
optionally joined by the word and, immediately followed by one of the
academic-unit nouns; the extracted name is the captured phrase without
the trailing noun.  In particular any two such words before the noun
exam are extracted as stated by the general clause, at most four words
are captured, an and-joined phrase keeps the joining word, and a single
word before a noun is not extracted. -/
theorem C7_named_form :
    (∀ w1 w2 : Str,
      (∀ x ∈ w1, Char.isAlpha x = true) → 2 ≤ w1.length →
      (∀ x ∈ w2, Char.isAlpha x = true) → 2 ≤ w2.length →
      isPreCI "and".data w2 = false →
      findallNames (w1 ++ ' ' :: (w2 ++ ' ' :: "exam".data)) =
        [w1 ++ ' ' :: w2]) ∧
    findallNames "Alpha Bravo Charlie Delta Echo exam".data =
      ["Bravo Charlie Delta Echo".data] ∧
    findallNames "Data and Structures lab".data =
      ["Data and Structures".data] ∧
    findallNames "Calculus exam".data = [] := by
  refine ⟨fun w1 w2 a b c d e => findallNames_symbolic w1 w2 a b c d e,
    ?_, ?_, ?_⟩ <;> decide

/-- Claim C7 witness: two concrete lowercase two-letter words before
the noun exam are extracted as one named-form course. -/
theorem C7_witness :
    findallNames ("zx".data ++ ' ' :: ("qy".data ++ ' ' :: "exam".data)) =
      ["zx".data ++ ' ' :: "qy".data] :=
  C7_named_form.1 "zx".data "qy".data (by decide) (by decide) (by decide)
    (by decide) (by decide)

/-- Claim C7 counterexample: a single capitalized word before a unit
noun yields no named-form match (the repetition group requires at least
one further word), and an all-lowercase phrase is matched (IGNORECASE),
refuting the claim as stated. -/
theorem C7_counterexample :
    findallNames "Calculus exam".data = [] ∧
    findallNames "data structures homework".data = ["data structures".data] := by
  decide

end ACC
